import Mathlib

/-!
Verification of the PBI-insights structural parser, field-reference resolver and
usage/dependency graph engine.  The Lean definitions below are a shallow
embedding of the Python sources:

  * `src/src/utils.py`        — field extractor and DAX wrapper stripper
  * `src/src/visual.py`       — visual construction (JSON-decode guards)
  * `src/pbi_insights/page.py`— page construction, used-field reformatting,
                                page hashing
  * `src/pbi_insights/measure.py` — measure identity and usage states
  * `src/src/report.py`       — dependency resolution and usage-state
                                propagation

Python values flowing through the extractors are heterogeneous JSON-like
trees; they are modelled by `PBI.JVal`.  Python `set`s are modelled as lists
read up to membership (the claims under study are membership/equality facts,
never order or multiplicity facts).  JSON numbers are modelled as integers;
no claim concerns numeric payloads.  Inputs on which the Python code raises
(e.g. calling `.get` on a non-dict) are outside the modelled domain; every
such spot is marked in a comment, and no theorem below depends on one.
-/

namespace PBI

/-- A JSON-like value, the duck-typed data the Python extractors traverse.
`null` also stands for the Python value `None`. -/
inductive JVal where
  | null : JVal
  | bool : Bool → JVal
  | num : Int → JVal
  | str : String → JVal
  | arr : List JVal → JVal
  | obj : List (String × JVal) → JVal

/-- Python truthiness (`if x:`) of a JSON-like value: `None`, `False`, `0`,
`""`, `[]` and `{}` are falsy, everything else truthy. -/
def pyTruthy : JVal → Bool
  | .null => false
  | .bool b => b
  | .num n => n != 0
  | .str s => s != ""
  | .arr l => !l.isEmpty
  | .obj kvs => !kvs.isEmpty

mutual

/-- Python `repr` of a JSON-like value (used by `str` on containers). -/
def pyRepr : JVal → String
  | .null => "None"
  | .bool true => "True"
  | .bool false => "False"
  | .num n => toString n
  | .str s => "'" ++ s ++ "'"
  | .arr l => "[" ++ String.intercalate ", " (pyReprList l) ++ "]"
  | .obj kvs => "\x7b" ++ String.intercalate ", " (pyReprObj kvs) ++ "\x7d"

/-- `repr` of each element of a Python list. -/
def pyReprList : List JVal → List String
  | [] => []
  | v :: vs => pyRepr v :: pyReprList vs

/-- `repr` of each `key: value` item of a Python dict. -/
def pyReprObj : List (String × JVal) → List String
  | [] => []
  | (k, v) :: kvs => ("'" ++ k ++ "': " ++ pyRepr v) :: pyReprObj kvs

end

/-- Python `str` of a JSON-like value (f-string interpolation). -/
def pyStr : JVal → String
  | .str s => s
  | v => pyRepr v

/-- `d[k]` / `d.get(k)` on the association list of an object: the value at the
first binding of `k` (Python dict keys are unique, so at most one exists). -/
def lookupVal (kvs : List (String × JVal)) (k : String) : Option JVal :=
  (kvs.find? (fun kv => kv.1 = k)).map (fun kv => kv.2)

/-- `v.get(k)` where `v` is expected to be a dict.  On a non-dict Python
raises `AttributeError`; such inputs are outside the modelled domain. -/
def objGet (v : JVal) (k : String) : Option JVal :=
  match v with
  | .obj kvs => lookupVal kvs k
  | _ => none

/-- `v.get(k, d)` with a default, same caveat as `objGet`. -/
def objGetD (v : JVal) (k : String) (d : JVal) : JVal :=
  (objGet v k).getD d

/-! ### `_strip_dax_functions` (src/src/utils.py)

The Python function works on strings through `re` and slicing; it is embedded
over `List Char`.  `re.findall(r"\b(\w+)\(", query)[0]` — the first maximal
run of word characters that starts at a word boundary and is immediately
followed by `'('` — is embedded by `findWrapper` below. -/

/-- Python's `\w` on the ASCII range: letters, digits, underscore. -/
def isWordChar (c : Char) : Bool := c.isAlpha || c.isDigit || c = '_'

/-- First match of `\b(\w+)\(`: scan for a position at a word boundary
(`prev` records whether the previous character was a word character) that
starts a maximal word-character run immediately followed by `'('`; return
that run. -/
def findWrapper : Bool → List Char → Option (List Char)
  | _, [] => none
  | prev, c :: cs =>
    if !prev && isWordChar c then
      if (cs.dropWhile isWordChar).head? = some '(' then
        some (c :: cs.takeWhile isWordChar)
      else findWrapper true cs
    else findWrapper (isWordChar c) cs

/-- Python `s.split(sep)` restricted to `sep = ","`: split at every comma
(empty parts kept, `split` of the empty string is `[""]`). -/
def splitOnComma : List Char → List (List Char)
  | [] => [[]]
  | c :: cs =>
    if c = ',' then [] :: splitOnComma cs
    else
      match splitOnComma cs with
      | p :: ps => (c :: p) :: ps
      | [] => [[c]]

/-- `s.index(c)`: index of the first occurrence, `none` for Python's
`ValueError`. -/
def pyIndex (c : Char) (l : List Char) : Option Nat :=
  l.findIdx? (fun x => x = c)

/-- `s.rindex(c)`: index of the last occurrence, `none` for `ValueError`. -/
def pyRindex (c : Char) (l : List Char) : Option Nat :=
  (l.reverse.findIdx? (fun x => x = c)).map (fun i => l.length - 1 - i)

/-- Python slice `s[a:b]` (with `0 ≤ a`, clamping, empty when `b ≤ a`). -/
def pySlice (l : List Char) (a b : Nat) : List Char :=
  (l.drop a).take (b - a)

/-- The simple-wrapper set of `_strip_dax_functions`. -/
def wrapper_functions : List (List Char) :=
  ["Avg".toList, "Count".toList, "CountNonNull".toList, "Max".toList,
   "Median".toList, "Min".toList, "StandardDeviation".toList, "Sum".toList]

/-- The recursive-wrapper set of `_strip_dax_functions`. -/
def rec_wrapper_functions : List (List Char) :=
  ["Divide".toList, "ScopedEval".toList]

/-- `_strip_dax_functions`, with a fuel argument bounding the recursion
depth.  The Python recursion always acts on strictly shorter strings, so
fuel `query.length` is always sufficient (`stripDaxFuel_stable` below);
exhausted fuel falls back to the no-wrapper answer, which is never reached
from `strip_dax_functions`.

Match of the body with the source: on `found_wrapper[0] ∈ rec set`, the
sub-queries are `query[len(found_wrapper[0]):-1].split(",")` — note the
source drops only the function name and the final character, keeping the
opening parenthesis; on the simple set, the result is the slice between
`index('(') + 1` and `rindex(')')`, or the whole query if either `index`
raises; otherwise the query itself. -/
def stripDaxFuel : Nat → List Char → List (List Char)
  | 0, q => [q]
  | fuel + 1, q =>
    match findWrapper false q with
    | none => [q]
    | some fw =>
      if fw ∈ rec_wrapper_functions then
        (splitOnComma ((q.drop fw.length).dropLast)).map (stripDaxFuel fuel) |>.flatten
      else if fw ∈ wrapper_functions then
        match pyIndex '(' q, pyRindex ')' q with
        | some i, some j => [pySlice q (i + 1) j]
        | _, _ => [q]
      else [q]

/-- `_strip_dax_functions(query)`, at the always-sufficient fuel. -/
def strip_dax_functions (q : List Char) : List (List Char) :=
  stripDaxFuel q.length q

/-- A wrapper match is a nonempty run strictly inside the scanned list. -/
theorem findWrapper_some_length {prev : Bool} {l fw : List Char}
    (h : findWrapper prev l = some fw) : 0 < fw.length ∧ fw.length < l.length := by
  induction l generalizing prev with
  | nil => simp [findWrapper] at h
  | cons c cs ih =>
    rw [findWrapper] at h
    by_cases hc : (!prev && isWordChar c) = true
    · rw [if_pos hc] at h
      by_cases hd : (cs.dropWhile isWordChar).head? = some '('
      · rw [if_pos hd] at h
        obtain rfl : c :: cs.takeWhile isWordChar = fw := by
          simpa using h
        have hlen : (cs.takeWhile isWordChar).length < cs.length := by
          have hsp := List.takeWhile_append_dropWhile (p := isWordChar) (l := cs)
          have hne : cs.dropWhile isWordChar ≠ [] := by
            intro hnil
            rw [hnil] at hd
            simp at hd
          have := congrArg List.length hsp
          simp only [List.length_append] at this
          have : (cs.takeWhile isWordChar).length + (cs.dropWhile isWordChar).length
              = cs.length := this
          have hpos : 0 < (cs.dropWhile isWordChar).length :=
            List.length_pos.mpr hne
          omega
        constructor
        · simp
        · simp only [List.length_cons]
          omega
      · rw [if_neg hd] at h
        have := ih h
        constructor
        · exact this.1
        · simp only [List.length_cons]
          omega
    · rw [if_neg hc] at h
      have := ih h
      constructor
      · exact this.1
      · simp only [List.length_cons]
        omega

/-- Comma-split parts are no longer than the split list. -/
theorem splitOnComma_length {l p : List Char} (h : p ∈ splitOnComma l) :
    p.length ≤ l.length := by
  induction l generalizing p with
  | nil =>
    simp only [splitOnComma, List.mem_singleton] at h
    simp [h]
  | cons c cs ih =>
    rw [splitOnComma] at h
    by_cases hc : c = ','
    · rw [if_pos hc] at h
      rcases List.mem_cons.mp h with h1 | h1
      · simp [h1]
      · have := ih h1
        simp only [List.length_cons]
        omega
    · rw [if_neg hc] at h
      rcases hsp : splitOnComma cs with _ | ⟨hd, tl⟩
      · rw [hsp] at h
        simp only [List.mem_singleton] at h
        subst h
        simp
      · rw [hsp] at h
        rcases List.mem_cons.mp h with h1 | h1
        · subst h1
          have : hd ∈ splitOnComma cs := by rw [hsp]; exact List.mem_cons_self _ _
          have := ih this
          simp only [List.length_cons]
          omega
        · have : p ∈ splitOnComma cs := by rw [hsp]; exact List.mem_cons_of_mem _ h1
          have := ih this
          simp only [List.length_cons]
          omega

/-- Fuel above the query length is irrelevant: `stripDaxFuel` computes the
Python recursion once the fuel reaches the query length. -/
theorem stripDaxFuel_stable (fuel : Nat) (q : List Char) (h : q.length ≤ fuel) :
    stripDaxFuel fuel q = stripDaxFuel (fuel + 1) q := by
  induction fuel generalizing q with
  | zero =>
    have : q = [] := List.eq_nil_of_length_eq_zero (Nat.le_zero.mp h)
    subst this
    simp [stripDaxFuel, findWrapper]
  | succ f ih =>
    rcases hw : findWrapper false q with _ | fw
    · simp only [stripDaxFuel, hw]
    · simp only [stripDaxFuel, hw]
      by_cases hrec : fw ∈ rec_wrapper_functions
      · rw [if_pos hrec, if_pos hrec]
        congr 1
        apply List.map_congr_left
        intro sub hsub
        have hfw := findWrapper_some_length hw
        have hlen : sub.length ≤ ((q.drop fw.length).dropLast).length :=
          splitOnComma_length hsub
        have : ((q.drop fw.length).dropLast).length = q.length - fw.length - 1 := by
          simp
        have hsubf : sub.length ≤ f := by omega
        exact ih sub hsubf
      · rw [if_neg hrec, if_neg hrec]

/-- Any fuel at least the query length yields `strip_dax_functions`. -/
theorem stripDaxFuel_eq_strip (fuel : Nat) (q : List Char) (h : q.length ≤ fuel) :
    stripDaxFuel fuel q = strip_dax_functions q := by
  induction fuel with
  | zero =>
    have : q = [] := List.eq_nil_of_length_eq_zero (Nat.le_zero.mp h)
    subst this
    rfl
  | succ f ih =>
    by_cases hf : q.length ≤ f
    · rw [← stripDaxFuel_stable f q hf, ih hf]
    · have : q.length = f + 1 := by omega
      rw [strip_dax_functions, this]

/-! ### Field extractors (src/src/utils.py) -/

/-- `_projections_fields(data_object)`: for every projection role and every
entry, run the DAX stripper on the entry's `queryRef` string and union the
results.  A non-dict input, a non-list role value, a missing `queryRef` or a
non-string `queryRef` raise in Python (`.items()` / iteration / `KeyError` /
`re` on non-str) and are outside the modelled domain. -/
def projections_fields (pv : JVal) : List JVal :=
  match pv with
  | .obj pkvs =>
    (pkvs.map (fun kv =>
      match kv.2 with
      | .arr entries =>
        (entries.map (fun e =>
          match objGet e "queryRef" with
          | some (.str q) => (strip_dax_functions q.toList).map (fun cs => JVal.str cs.asString)
          | _ => [])).flatten
      | _ => [])).flatten
  | _ => []

/-- `_queryMetadata_fields(queryMetadata)`: the set of each `Select` entry's
`Name` field, with the empty string as the default for a missing `Name`
(`select_statement.get("Name", "")`).  A missing or non-list `Select`, or a
non-dict entry, raise in Python and are outside the modelled domain. -/
def queryMetadata_fields (qm : JVal) : List JVal :=
  match qm with
  | .obj qkvs =>
    match lookupVal qkvs "Select" with
    | some (.arr sel) => sel.map (fun s => objGetD s "Name" (.str ""))
    | _ => []
  | _ => []

/-- `_selects_fields(selects)`: the set of each entry's `queryName` field.
`select_statement.get("queryName")` has no default, so an entry without the
field adds Python `None` (modelled as `JVal.null`) to the set.  A non-list
input or non-dict entry raise in Python and are outside the modelled
domain. -/
def selects_fields (selects : JVal) : List JVal :=
  match selects with
  | .arr l => l.map (fun s => objGetD s "queryName" .null)
  | _ => []

/-- Dispatch test 3 of `_recursive_find_fields`: `"queryMetadata" in
data_object and data_object["queryMetadata"] is not None and "Select" in
data_object["queryMetadata"]`.  The last conjunct is modelled for a dict
value; on a string Python would instead test substring containment, a corner
no claim touches. -/
def qmNotNullSelect (kvs : List (String × JVal)) : Bool :=
  match lookupVal kvs "queryMetadata" with
  | some (.obj qkvs) => (lookupVal qkvs "Select").isSome
  | _ => false

/-- Dispatch test 4 of `_recursive_find_fields`: `"queryMetadata" in
data_object and data_object["queryMetadata"] is None and "selects" in
data_object`. -/
def qmNullSelects (kvs : List (String × JVal)) : Bool :=
  match lookupVal kvs "queryMetadata" with
  | some .null => (lookupVal kvs "selects").isSome
  | _ => false

/-- The leaf pattern of `_recursive_find_fields`' generic case: if the object
has both a `Property` and an `Expression` key and the expression's
`SourceRef.Entity` and the `Property` value are both present (truthy), the
f-string `"{Entity}.{Property}"` is produced. -/
def leafFields (kvs : List (String × JVal)) : List JVal :=
  match lookupVal kvs "Property", lookupVal kvs "Expression" with
  | some prop, some expr =>
    match objGet (objGetD expr "SourceRef" (.obj [])) "Entity" with
    | some e =>
      if pyTruthy e && pyTruthy prop then [.str (pyStr e ++ "." ++ pyStr prop)]
      else []
    | none => []
  | _, _ => []

/-- Values bound in an object association list are smaller than the list. -/
theorem lookupVal_sizeOf {kvs : List (String × JVal)} {k : String} {v : JVal}
    (h : lookupVal kvs k = some v) : sizeOf v < sizeOf kvs := by
  unfold lookupVal at h
  rcases hfind : kvs.find? (fun kv => kv.1 = k) with _ | kv
  · rw [hfind] at h
    simp at h
  · rw [hfind] at h
    simp only [Option.map_some'] at h
    have hmem : kv ∈ kvs := List.mem_of_find?_eq_some hfind
    have hsz : sizeOf kv < sizeOf kvs := List.sizeOf_lt_of_mem hmem
    obtain ⟨a, b⟩ := kv
    simp only [Option.some.injEq] at h
    subst h
    simp only [Prod.mk.sizeOf_spec] at hsz
    omega

/-- `_recursive_find_fields(data_object)`: the five-way shape dispatch.  The
first four recognized shapes return immediately; the generic fallback adds
the leaf pattern (if it matches) and, independently, recurses into every
value of the object.  Arrays recurse into every element; scalars contribute
nothing. -/
def recursive_find_fields (v : JVal) : List JVal :=
  match v with
  | .obj kvs =>
    if hp : (lookupVal kvs "projections").isSome then
      projections_fields ((lookupVal kvs "projections").get hp)
    else if he : (lookupVal kvs "expression").isSome then
      recursive_find_fields ((lookupVal kvs "expression").get he)
    else if qmNotNullSelect kvs then
      queryMetadata_fields ((lookupVal kvs "queryMetadata").getD .null)
    else if qmNullSelects kvs then
      selects_fields ((lookupVal kvs "selects").getD .null)
    else
      leafFields kvs ++ (kvs.attach.map (fun kv => recursive_find_fields kv.1.2)).flatten
  | .arr l => (l.attach.map (fun x => recursive_find_fields x.1)).flatten
  | _ => []
termination_by sizeOf v
decreasing_by
  · have hv : lookupVal kvs "expression" = some ((lookupVal kvs "expression").get he) :=
      (Option.some_get he).symm
    have := lookupVal_sizeOf hv
    simp only [JVal.obj.sizeOf_spec]
    omega
  · obtain ⟨⟨a, b⟩, hm⟩ := kv
    have hsz : sizeOf (a, b) < sizeOf kvs := List.sizeOf_lt_of_mem hm
    simp only [Prod.mk.sizeOf_spec] at hsz
    simp only [JVal.obj.sizeOf_spec]
    omega
  · obtain ⟨w, hm⟩ := x
    have hsz : sizeOf w < sizeOf l := List.sizeOf_lt_of_mem hm
    simp only [JVal.arr.sizeOf_spec]
    omega

/-- In the generic fallback case (none of the four recognized shapes), the
extractor returns the leaf-pattern fields followed by the union of the
recursive results over every value of the object. -/
theorem recursive_find_fields_fallback (kvs : List (String × JVal))
    (h1 : lookupVal kvs "projections" = none)
    (h2 : lookupVal kvs "expression" = none)
    (h3 : qmNotNullSelect kvs = false)
    (h4 : qmNullSelects kvs = false) :
    recursive_find_fields (JVal.obj kvs)
      = leafFields kvs ++ (kvs.attach.map (fun kv => recursive_find_fields kv.1.2)).flatten := by
  rw [recursive_find_fields]
  rw [dif_neg (by simp [h1]), dif_neg (by simp [h2]), if_neg (by simp [h3]),
    if_neg (by simp [h4])]

/-- Claim C1: the DAX Reference Normalizer on
`Divide(Sum(Sales.Revenue), Count(Orders.ID))`.  The source strips only the
function name and the final character (`query[len(found_wrapper[0]):-1]`),
keeping the opening parenthesis, so the first sub-expression keeps a stray
`Sum(` prefix: the result is `{"Sum(Sales.Revenue", "Orders.ID"}`, not the
`{"Sales.Revenue", "Orders.ID"}` the claim (and the function's own
docstring) demand. -/
theorem c1_strip_dax_divide_eval :
    strip_dax_functions ("Divide(Sum(Sales.Revenue), Count(Orders.ID))".toList)
      = ["Sum(Sales.Revenue".toList, "Orders.ID".toList]
      ∧ "Sales.Revenue".toList ∉
          strip_dax_functions ("Divide(Sum(Sales.Revenue), Count(Orders.ID))".toList) := by
  constructor
  · rfl
  · decide

/-- Claim C4: a `Select` entry without a `Name` field contributes the empty
string (`.get("Name", "")`), but a `selects` entry without a `queryName`
field is not skipped: `.get("queryName")` has no default, so Python `None`
(modelled `JVal.null`) is added to the result set. -/
theorem c4_missing_name_fields :
    queryMetadata_fields
        (JVal.obj [("Select", JVal.arr [JVal.obj [("Name", JVal.str "Sales.X")], JVal.obj []])])
      = [JVal.str "Sales.X", JVal.str ""]
    ∧ selects_fields (JVal.arr [JVal.obj [("queryName", JVal.str "Orders.Y")], JVal.obj []])
      = [JVal.str "Orders.Y", JVal.null] := by
  constructor
  · rfl
  · rfl

/-- Claim C5: in the generic fallback case of the Field Reference Extractor,
when the dict has both a `Property` key and an `Expression` key whose
`SourceRef.Entity` and `Property` values are present (truthy), the string
`"{Entity}.{Property}"` is in the result, and independently the extractor
recurses into every value of the dict: the result's members are exactly that
leaf string together with every member of a recursive result — the leaf
check is additive, not exclusive of the recursion. -/
theorem c5_fallback_leaf_additive (kvs : List (String × JVal)) (prop expr e : JVal)
    (h1 : lookupVal kvs "projections" = none)
    (h2 : lookupVal kvs "expression" = none)
    (h3 : qmNotNullSelect kvs = false)
    (h4 : qmNullSelects kvs = false)
    (hp : lookupVal kvs "Property" = some prop)
    (hx : lookupVal kvs "Expression" = some expr)
    (he : objGet (objGetD expr "SourceRef" (JVal.obj [])) "Entity" = some e)
    (ht : (pyTruthy e && pyTruthy prop) = true) :
    ∀ x, x ∈ recursive_find_fields (JVal.obj kvs) ↔
      x = JVal.str (pyStr e ++ "." ++ pyStr prop)
        ∨ ∃ kv ∈ kvs, x ∈ recursive_find_fields kv.2 := by
  intro x
  rw [recursive_find_fields_fallback kvs h1 h2 h3 h4]
  have hleaf : leafFields kvs = [JVal.str (pyStr e ++ "." ++ pyStr prop)] := by
    rw [leafFields, hp, hx]
    simp only [he, ht, if_pos]
  rw [hleaf]
  simp only [List.mem_append, List.mem_singleton, List.mem_flatten, List.mem_map,
    List.mem_attach, true_and, Subtype.exists]
  constructor
  · rintro (hx1 | ⟨ys, ⟨kv, hkv, rfl⟩, hy⟩)
    · exact Or.inl hx1
    · exact Or.inr ⟨kv, hkv, hy⟩
  · rintro (hx1 | ⟨kv, hkv, hy⟩)
    · exact Or.inl hx1
    · exact Or.inr ⟨recursive_find_fields kv.2, ⟨kv, hkv, rfl⟩, hy⟩

/-- Concrete object exercising the C5 fallback: the object carries the leaf
pattern `Sales.Revenue` and, under another key, a nested leaf `Orders.ID`. -/
def c5ExampleKvs : List (String × JVal) :=
  [("Property", JVal.str "Revenue"),
   ("Expression", JVal.obj [("SourceRef", JVal.obj [("Entity", JVal.str "Sales")])]),
   ("nested", JVal.obj [("Property", JVal.str "ID"),
      ("Expression", JVal.obj [("SourceRef", JVal.obj [("Entity", JVal.str "Orders")])])])]

/-- Concrete instantiation for C5: the characterization applies to
`c5ExampleKvs`. -/
theorem c5_fallback_leaf_additive_witness :
    lookupVal c5ExampleKvs "projections" = none
    ∧ (JVal.str "Orders.ID" ∈ recursive_find_fields (JVal.obj c5ExampleKvs)
        ↔ (JVal.str "Orders.ID"
              = JVal.str (pyStr (JVal.str "Sales") ++ "." ++ pyStr (JVal.str "Revenue"))
            ∨ ∃ kv ∈ c5ExampleKvs, JVal.str "Orders.ID" ∈ recursive_find_fields kv.2)) :=
  ⟨rfl, c5_fallback_leaf_additive c5ExampleKvs (JVal.str "Revenue")
    (JVal.obj [("SourceRef", JVal.obj [("Entity", JVal.str "Sales")])]) (JVal.str "Sales")
    rfl rfl rfl rfl rfl rfl rfl rfl (JVal.str "Orders.ID")⟩

/-! ### `Page._reformat_used_fields` (src/pbi_insights/page.py) -/

/-- `field.split('.', 1)`: split at the first `'.'` only, `none` when the
string contains no `'.'` (Python then returns a one-element list). -/
def splitFirstDot : List Char → Option (List Char × List Char)
  | [] => none
  | c :: cs =>
    if c = '.' then some ([], cs)
    else (splitFirstDot cs).map (fun p => (c :: p.1, p.2))

/-- One entry of `_reformat_used_fields`: `Entity.Property` becomes
`f"{parts[0]}[{parts[1]}]"`; an entry without a `'.'` yields `none` — the
source prints a warning and drops it, it never raises. -/
def reformat_field (f : String) : Option String :=
  (splitFirstDot f.toList).map (fun p => (p.1 ++ '[' :: (p.2 ++ [']'])).asString)

/-- `_reformat_used_fields`: rebuild the used-field set keeping exactly the
reformatted entries. -/
def reformat_used_fields (fields : List String) : List String :=
  fields.filterMap reformat_field

/-- A list without a dot splits to `none`. -/
theorem splitFirstDot_eq_none {l : List Char} (h : '.' ∉ l) :
    splitFirstDot l = none := by
  induction l with
  | nil => rfl
  | cons c cs ih =>
    rw [splitFirstDot]
    have hc : c ≠ '.' := fun hc => h (hc ▸ List.mem_cons_self c cs)
    rw [if_neg hc, ih (fun hm => h (List.mem_cons_of_mem c hm))]
    rfl

/-- Splitting at the first dot of `a ++ '.' :: b` with `a` dot-free. -/
theorem splitFirstDot_append {a : List Char} (b : List Char) (h : '.' ∉ a) :
    splitFirstDot (a ++ '.' :: b) = some (a, b) := by
  induction a with
  | nil => simp [splitFirstDot]
  | cons c cs ih =>
    have hc : c ≠ '.' := fun hc => h (hc ▸ List.mem_cons_self c cs)
    rw [List.cons_append, splitFirstDot, if_neg hc,
      ih (fun hm => h (List.mem_cons_of_mem c hm))]
    rfl

/-- Claim C7: reformatting a page's used fields transforms every dotted
entry `Entity.Property` into `Entity[Property]` by splitting on the first
`'.'` only, drops every dot-free entry (without raising — `reformat_field`
is total and simply yields `none` there), and keeps nothing else; in
particular `"Sales.Revenue"` becomes `"Sales[Revenue]"`. -/
theorem c7_reformat_used_fields :
    (∀ f : String, '.' ∉ f.toList → reformat_field f = none)
    ∧ (∀ a b : List Char, '.' ∉ a →
        reformat_field (List.asString (a ++ '.' :: b))
          = some (List.asString (a ++ '[' :: (b ++ [']']))))
    ∧ (∀ (fields : List String) (g : String),
        g ∈ reformat_used_fields fields ↔ ∃ f ∈ fields, reformat_field f = some g)
    ∧ reformat_field "Sales.Revenue" = some "Sales[Revenue]" := by
  refine ⟨?_, ?_, ?_, ?_⟩
  · intro f hf
    rw [reformat_field, splitFirstDot_eq_none hf]
    rfl
  · intro a b ha
    rw [reformat_field]
    have : (List.asString (a ++ '.' :: b)).toList = a ++ '.' :: b := by
      simp [List.asString, String.toList]
    rw [this, splitFirstDot_append b ha]
    rfl
  · intro fields g
    simp [reformat_used_fields, List.mem_filterMap]
  · rfl

/-- Concrete instantiation for C7: `"Sales" ++ "." ++ "Revenue"` reformats to
`"Sales[Revenue]"` via the first-dot split. -/
theorem c7_reformat_used_fields_witness :
    ('.' ∉ ("NoDot" : String).toList ∧ reformat_field "NoDot" = none)
    ∧ reformat_field (List.asString ("Sales".toList ++ '.' :: "Revenue".toList))
        = some (List.asString ("Sales".toList ++ '[' :: ("Revenue".toList ++ [']']))) :=
  ⟨⟨by decide, c7_reformat_used_fields.1 "NoDot" (by decide)⟩,
    c7_reformat_used_fields.2.1 "Sales".toList "Revenue".toList (by decide)⟩

/-! ### `Page` identity (src/pbi_insights/page.py)

The `Page` class defines `__hash__` (from the `(ordinal, name)` pair) but no
`__eq__`, so Python's default `object.__eq__` — object identity — decides
equality and set/dict membership.  A page object is modelled with its
identity (`oid`, Python's `id()`; distinct live objects have distinct ids)
and the two hashed attributes. -/

/-- A constructed `Page` object: Python object identity plus the attributes
its `__hash__` reads (`ordinal` is `section_data.get("ordinal")`, so
optional). -/
structure PyPage where
  oid : Nat
  ordinal : Option Int
  name : String

/-- `Page.__hash__`: `hash((self.ordinal, self.name))`, modelled by the
hashed key pair itself. -/
def pageHashKey (p : PyPage) : Option Int × String := (p.ordinal, p.name)

/-- `Page.__eq__`: not defined by the class, hence Python's default object
identity. -/
def pageEq (p q : PyPage) : Bool := p.oid == q.oid

/-- Claim C8 counterexample: two distinct `Page` objects agreeing on
`(ordinal, name)` are *not* equal (and hence not interchangeable as set or
dict members), because `Page` defines `__hash__` but no `__eq__`: identity
is not the pair. -/
theorem c8_page_identity_counterexample :
    pageHashKey ⟨0, some 1, "Overview"⟩ = pageHashKey ⟨1, some 1, "Overview"⟩
    ∧ pageEq ⟨0, some 1, "Overview"⟩ ⟨1, some 1, "Overview"⟩ = false :=
  ⟨rfl, rfl⟩

/-- Claim C8 (amended): two `Page` objects are the same page exactly when
they are the same object (object identity), while the pair `(ordinal, name)`
determines only the hash: hashes agree iff the pairs agree. -/
theorem c8_page_identity_amended (p q : PyPage) :
    (pageEq p q = true ↔ p.oid = q.oid)
    ∧ (pageHashKey p = pageHashKey q ↔ (p.ordinal = q.ordinal ∧ p.name = q.name)) := by
  constructor
  · simp [pageEq]
  · simp [pageHashKey, Prod.ext_iff]

/-! ### JSON-decode guards of `Visual.__init__` (src/src/visual.py) and
`Page.__init__` (src/pbi_insights/page.py) -/

/-- The decode pattern `json.loads(s) if s else default` applied to a field
read with `.get`: the guard tests the *truthiness* of the string, so both an
absent field (`None`) and a present-but-empty string fall to the default
without ever invoking the decoder.  `loads` stands for `json.loads`, with
`Except.error` for a raised `JSONDecodeError`. -/
def jsonGuardedLoad (s : Option String) (loads : String → Except String JVal)
    (dflt : JVal) : Except String JVal :=
  match s with
  | none => Except.ok dflt
  | some str => if str = "" then Except.ok dflt else loads str

/-- `Visual.__init__`: `self.config = json.loads(config_str) if config_str
else {}`. -/
def visual_decode_config (container : String → Option String)
    (loads : String → Except String JVal) : Except String JVal :=
  jsonGuardedLoad (container "config") loads (JVal.obj [])

/-- `Visual.__init__`: `self.filters = json.loads(filters_str) if filters_str
else []`. -/
def visual_decode_filters (container : String → Option String)
    (loads : String → Except String JVal) : Except String JVal :=
  jsonGuardedLoad (container "filters") loads (JVal.arr [])

/-- `Visual.__init__`: `self.data_transforms = json.loads(...) if ... else
{}`. -/
def visual_decode_dataTransforms (container : String → Option String)
    (loads : String → Except String JVal) : Except String JVal :=
  jsonGuardedLoad (container "dataTransforms") loads (JVal.obj [])

/-- `Page.__init__`: `self.config = json.loads(config_str) if config_str else
{}`. -/
def page_decode_config (sectionData : String → Option String)
    (loads : String → Except String JVal) : Except String JVal :=
  jsonGuardedLoad (sectionData "config") loads (JVal.obj [])

/-- `Page.__init__`: `self.filters = json.loads(filters_str) if filters_str
else []`. -/
def page_decode_filters (sectionData : String → Option String)
    (loads : String → Except String JVal) : Except String JVal :=
  jsonGuardedLoad (sectionData "filters") loads (JVal.arr [])

/-- Claim C10: for each of the guarded fields of a visual container
(`config`, `filters`, `dataTransforms`) and of a section record (`config`,
`filters`), a present-but-empty string is treated exactly like an absent
field: the decoded value is the empty default and no decoding error is ever
produced, whatever the decoder would do. -/
theorem c10_empty_string_decode (loads : String → Except String JVal)
    (c : String → Option String) :
    (c "config" = none ∨ c "config" = some "" →
      visual_decode_config c loads = Except.ok (JVal.obj [])
      ∧ page_decode_config c loads = Except.ok (JVal.obj []))
    ∧ (c "filters" = none ∨ c "filters" = some "" →
      visual_decode_filters c loads = Except.ok (JVal.arr [])
      ∧ page_decode_filters c loads = Except.ok (JVal.arr []))
    ∧ (c "dataTransforms" = none ∨ c "dataTransforms" = some "" →
      visual_decode_dataTransforms c loads = Except.ok (JVal.obj [])) := by
  refine ⟨?_, ?_, ?_⟩
  · rintro (h | h) <;>
      simp [visual_decode_config, page_decode_config, jsonGuardedLoad, h]
  · rintro (h | h) <;>
      simp [visual_decode_filters, page_decode_filters, jsonGuardedLoad, h]
  · rintro (h | h) <;>
      simp [visual_decode_dataTransforms, jsonGuardedLoad, h]

/-- A visual-container record whose three decoded fields are all present but
empty. -/
def c10ExampleContainer : String → Option String := fun _ => some ""

/-- An always-failing decoder: stands for `json.loads`, which raises on the
empty string. -/
def c10FailingLoads : String → Except String JVal := fun _ => Except.error "decode error"

/-- Concrete instantiation for C10: with every field present as the empty
string and a decoder that fails on every input, construction still produces
the empty defaults. -/
theorem c10_empty_string_decode_witness :
    visual_decode_config c10ExampleContainer c10FailingLoads = Except.ok (JVal.obj [])
    ∧ page_decode_config c10ExampleContainer c10FailingLoads = Except.ok (JVal.obj []) :=
  (c10_empty_string_decode c10FailingLoads c10ExampleContainer).1 (Or.inr rfl)

/-! ### The dependency-graph resolver of `Report` (src/src/report.py)

After `_load_pages` and `_load_measures`, the `Report` holds: the ordered
keys of `self.measures` (measure full names `Entity[Name]`), each measure's
`referenced_measures` raw-name set, each measure's `usage_state` (all still
`UNREFERENCED`, nothing has written it yet), and the loaded pages with their
reformatted `used_fields` sets.  That state is modelled by `Graph`; on it
run `_resolve_measure_dependencies`, `_resolve_usage_dependencies` and
`_resolve_measure_usage_states`.  Pages are identified by their index in
`self.pages` (Python set membership of `Page` objects is object identity,
and the list holds distinct objects). -/

/-- The four states of `UsageState` (src/pbi_insights/measure.py). -/
inductive UsageState where
  | DIRECTLY_USED : UsageState
  | INDIRECTLY_USED : UsageState
  | UNREFERENCED : UsageState
  | DANGLING : UsageState
  deriving DecidableEq

/-- The `usage_state` fields of all measures, as a map on full names (only
the values at `Graph.keys` are meaningful). -/
abbrev StMap := String → UsageState

/-- Assignment `measure.usage_state = v` for the measure keyed `k`. -/
def setSt (st : StMap) (k : String) (v : UsageState) : StMap :=
  fun t => if t = k then v else st t

/-- A loaded page as the resolver reads it: its reformatted `used_fields`
set. -/
structure PageData where
  used_fields : List String
  deriving DecidableEq

/-- The loaded report state the three resolver methods operate on:
`keys` is `list(self.measures)` (full names in insertion order), `refs k`
the `referenced_measures` set of the measure keyed `k`, and `pages` the
loaded `self.pages`. -/
structure Graph where
  keys : List String
  refs : String → List String
  pages : List PageData

/-- `_resolve_measure_dependencies` populates `referenced_by_measures`: the
measure keyed `t` receives every measure `m` whose `referenced_measures`
contains `t`, provided `self.measures.get(t)` finds `t` (the loop adds to a
set, so the resulting set is this comprehension). -/
def referenced_by_measures (g : Graph) (t : String) : List String :=
  if t ∈ g.keys then g.keys.filter (fun m => t ∈ g.refs m) else []

/-- The mutable state threaded through `_resolve_usage_dependencies`:
`um i` is page `i`'s `used_measures`, `uip k` is measure `k`'s
`used_in_pages` (by page index), `st` the usage states. -/
structure LinkState where
  um : Nat → List String
  uip : String → List Nat
  st : StMap

/-- State before `_resolve_usage_dependencies`: `used_measures` and
`used_in_pages` empty, every `usage_state` still `UNREFERENCED`. -/
def initLinkState : LinkState :=
  { um := fun _ => [], uip := fun _ => [], st := fun _ => UsageState.UNREFERENCED }

/-- Inner loop body of `_resolve_usage_dependencies` for page `i` and field
name `f`: `measure = self.measures.get(f)`; if found, add the measure to the
page's `used_measures`, the page to the measure's `used_in_pages`, and set
the measure's state to `DIRECTLY_USED`. -/
def addLink (g : Graph) (i : Nat) (ls : LinkState) (f : String) : LinkState :=
  if f ∈ g.keys then
    { um := fun j => if j = i then ls.um j ++ [f] else ls.um j
    , uip := fun k => if k = f then ls.uip k ++ [i] else ls.uip k
    , st := setSt ls.st f UsageState.DIRECTLY_USED }
  else ls

/-- `for field_name in page.used_fields:` of `_resolve_usage_dependencies`. -/
def linkPage (g : Graph) (i : Nat) (p : PageData) (ls : LinkState) : LinkState :=
  p.used_fields.foldl (addLink g i) ls

/-- `for page in self.pages:` of `_resolve_usage_dependencies`, pages
numbered from `i`. -/
def linkPages (g : Graph) : Nat → List PageData → LinkState → LinkState
  | _, [], ls => ls
  | i, p :: ps, ls => linkPages g (i + 1) ps (linkPage g i p ls)

/-- `_resolve_usage_dependencies`, from the freshly loaded state. -/
def resolve_usage_dependencies (g : Graph) : LinkState :=
  linkPages g 0 g.pages initLinkState

/-- One traversal layer of `_propagate_indirect_usage(measure)`: walk the
measure's `referenced_measures`; every resolvable name whose measure is
still `UNREFERENCED` is set to `INDIRECTLY_USED` and recursed into
(`recurse` is the next recursion layer). -/
def propStep (g : Graph) (recurse : List String → StMap → StMap) :
    List String → StMap → StMap
  | [], st => st
  | r :: rs, st =>
    if r ∈ g.keys then
      if st r = UsageState.UNREFERENCED then
        propStep g recurse rs (recurse (g.refs r) (setSt st r UsageState.INDIRECTLY_USED))
      else propStep g recurse rs st
    else propStep g recurse rs st

/-- `_propagate_indirect_usage`, the recursion depth bounded by fuel.  The
Python recursion is entered only after flipping an `UNREFERENCED` measure to
`INDIRECTLY_USED`, so its depth is bounded by the number of `UNREFERENCED`
measures; fuel `g.keys.length` is therefore always sufficient
(`propagate_fuel_stable` below). -/
def propagate_indirect_usage (g : Graph) : Nat → List String → StMap → StMap
  | 0 => propStep g (fun _ st => st)
  | fuel + 1 => propStep g (propagate_indirect_usage g fuel)

/-- First loop of `_resolve_measure_usage_states`: for every measure (in
insertion order) currently `DIRECTLY_USED`, propagate along its
`referenced_measures`. -/
def propagateFrom (g : Graph) (fuel : Nat) : List String → StMap → StMap
  | [], st => st
  | k :: ks, st =>
    if st k = UsageState.DIRECTLY_USED then
      propagateFrom g fuel ks (propagate_indirect_usage g fuel (g.refs k) st)
    else propagateFrom g fuel ks st

/-- Second loop of `_resolve_measure_usage_states`: every measure still
`UNREFERENCED` with a non-empty `referenced_by_measures` becomes
`DANGLING` (each iteration reads and writes only its own measure, so the
loop is pointwise). -/
def classify_dangling (g : Graph) (st : StMap) : StMap :=
  fun k =>
    if st k = UsageState.UNREFERENCED ∧ referenced_by_measures g k ≠ [] then
      UsageState.DANGLING
    else st k

/-- `_resolve_measure_usage_states`, at the always-sufficient fuel. -/
def resolve_measure_usage_states (g : Graph) (st : StMap) : StMap :=
  classify_dangling g (propagateFrom g g.keys.length g.keys st)

/-- The usage states after `Report.__init__` has run all resolver steps. -/
def reportUsageState (g : Graph) : StMap :=
  resolve_measure_usage_states g (resolve_usage_dependencies g).st

/-- `page.used_measures` after construction: the propagation and dangling
passes write only `usage_state`, so the links of
`_resolve_usage_dependencies` are final. -/
def reportUsedMeasures (g : Graph) : Nat → List String :=
  (resolve_usage_dependencies g).um

/-- `measure.used_in_pages` after construction (page indices). -/
def reportUsedInPages (g : Graph) : String → List Nat :=
  (resolve_usage_dependencies g).uip

/-- Number of measures still `UNREFERENCED`. -/
def countU (g : Graph) (st : StMap) : Nat :=
  g.keys.countP (fun k => st k = UsageState.UNREFERENCED)

/-- The only state change the propagation pass ever makes:
`UNREFERENCED` to `INDIRECTLY_USED`. -/
def monoStep (st st' : StMap) : Prop :=
  ∀ t, st' t = st t
    ∨ (st t = UsageState.UNREFERENCED ∧ st' t = UsageState.INDIRECTLY_USED)

theorem monoStep_refl (st : StMap) : monoStep st st := fun _ => Or.inl rfl

theorem monoStep_trans {s1 s2 s3 : StMap} (h12 : monoStep s1 s2)
    (h23 : monoStep s2 s3) : monoStep s1 s3 := by
  intro t
  rcases h23 t with h | ⟨hu, hi⟩
  · rcases h12 t with h' | ⟨hu', hi'⟩
    · exact Or.inl (h.trans h')
    · exact Or.inr ⟨hu', h ▸ hi'⟩
  · rcases h12 t with h' | ⟨hu', hi'⟩
    · exact Or.inr ⟨h' ▸ hu, hi⟩
    · rw [hi'] at hu
      cases hu

theorem monoStep_preserve {st st' : StMap} (h : monoStep st st') {t : String}
    (ht : st t ≠ UsageState.UNREFERENCED) : st' t = st t := by
  rcases h t with h' | ⟨hu, _⟩
  · exact h'
  · exact absurd hu ht

theorem monoStep_ne_unref {st st' : StMap} (h : monoStep st st') {t : String}
    (ht : st t ≠ UsageState.UNREFERENCED) : st' t ≠ UsageState.UNREFERENCED := by
  rw [monoStep_preserve h ht]
  exact ht

theorem setSt_monoStep {st : StMap} {r : String}
    (hr : st r = UsageState.UNREFERENCED) :
    monoStep st (setSt st r UsageState.INDIRECTLY_USED) := by
  intro t
  by_cases ht : t = r
  · subst ht
    exact Or.inr ⟨hr, by simp [setSt]⟩
  · exact Or.inl (by simp [setSt, ht])

theorem propStep_mono (g : Graph) {recurse : List String → StMap → StMap}
    (hrec : ∀ l st, monoStep st (recurse l st)) :
    ∀ (l : List String) (st : StMap), monoStep st (propStep g recurse l st) := by
  intro l
  induction l with
  | nil => intro st; exact monoStep_refl st
  | cons r rs ih =>
    intro st
    rw [propStep]
    by_cases hk : r ∈ g.keys
    · rw [if_pos hk]
      by_cases hu : st r = UsageState.UNREFERENCED
      · rw [if_pos hu]
        exact monoStep_trans (monoStep_trans (setSt_monoStep hu) (hrec _ _)) (ih _)
      · rw [if_neg hu]
        exact ih st
    · rw [if_neg hk]
      exact ih st

theorem propagate_mono (g : Graph) :
    ∀ (fuel : Nat) (l : List String) (st : StMap),
      monoStep st (propagate_indirect_usage g fuel l st) := by
  intro fuel
  induction fuel with
  | zero => exact propStep_mono g (fun _ st => monoStep_refl st)
  | succ f ih => exact propStep_mono g ih

theorem countP_le_of_imp {α : Type} {l : List α} {p p' : α → Bool}
    (h : ∀ a, p' a = true → p a = true) : l.countP p' ≤ l.countP p := by
  induction l with
  | nil => simp
  | cons a as ih =>
    rw [List.countP_cons, List.countP_cons]
    by_cases ha : p' a = true
    · rw [if_pos ha, if_pos (h a ha)]
      omega
    · rw [if_neg ha]
      by_cases hb : p a = true
      · rw [if_pos hb]; omega
      · rw [if_neg hb]; omega

theorem countP_lt_of_mem {α : Type} {l : List α} {p p' : α → Bool} {r : α}
    (hmem : r ∈ l) (hp : p r = true) (hp' : p' r = false)
    (hmono : ∀ a, p' a = true → p a = true) :
    l.countP p' < l.countP p := by
  induction l with
  | nil => cases hmem
  | cons a as ih =>
    rw [List.countP_cons, List.countP_cons]
    rcases List.mem_cons.mp hmem with rfl | hmem'
    · rw [if_pos hp, if_neg (by simp [hp'])]
      have := countP_le_of_imp (l := as) hmono
      omega
    · have := ih hmem'
      by_cases ha : p' a = true
      · rw [if_pos ha, if_pos (hmono a ha)]
        omega
      · rw [if_neg ha]
        by_cases hb : p a = true
        · rw [if_pos hb]; omega
        · rw [if_neg hb]; omega

theorem countU_mono (g : Graph) {st st' : StMap} (h : monoStep st st') :
    countU g st' ≤ countU g st := by
  apply countP_le_of_imp
  intro a ha
  simp only [decide_eq_true_eq] at ha ⊢
  rcases h a with h' | ⟨hu, _⟩
  · exact h' ▸ ha
  · exact hu

theorem countU_setSt_lt (g : Graph) {st : StMap} {r : String} (hr : r ∈ g.keys)
    (hu : st r = UsageState.UNREFERENCED) :
    countU g (setSt st r UsageState.INDIRECTLY_USED) < countU g st := by
  apply countP_lt_of_mem hr
  · simp [hu]
  · simp [setSt]
  · intro a ha
    simp only [decide_eq_true_eq] at ha ⊢
    by_cases har : a = r
    · subst har
      simp [setSt] at ha
    · simpa [setSt, har] using ha

theorem propStep_of_no_unref (g : Graph) (recurse : List String → StMap → StMap) :
    ∀ (l : List String) (st : StMap),
      (∀ k ∈ g.keys, st k ≠ UsageState.UNREFERENCED) →
      propStep g recurse l st = st := by
  intro l
  induction l with
  | nil => intro st _; rfl
  | cons r rs ih =>
    intro st h
    rw [propStep]
    by_cases hk : r ∈ g.keys
    · rw [if_pos hk, if_neg (h r hk)]
      exact ih st h
    · rw [if_neg hk]
      exact ih st h

theorem no_unref_of_countU_zero (g : Graph) {st : StMap} (h : countU g st = 0) :
    ∀ k ∈ g.keys, st k ≠ UsageState.UNREFERENCED := by
  intro k hk hu
  have : 0 < countU g st := by
    rw [countU, List.countP_pos_iff]
    exact ⟨k, hk, by simp [hu]⟩
  omega

theorem propStep_mem_not_unref (g : Graph) {recurse : List String → StMap → StMap}
    (hrec : ∀ l st, monoStep st (recurse l st)) :
    ∀ (l : List String) (st : StMap) (r : String), r ∈ l → r ∈ g.keys →
      propStep g recurse l st r ≠ UsageState.UNREFERENCED := by
  intro l
  induction l with
  | nil => intro st r hr; cases hr
  | cons a as ih =>
    intro st r hr hk
    rcases List.mem_cons.mp hr with rfl | hr'
    · rw [propStep, if_pos hk]
      by_cases hu : st r = UsageState.UNREFERENCED
      · rw [if_pos hu]
        have h1 : (setSt st r UsageState.INDIRECTLY_USED) r ≠ UsageState.UNREFERENCED := by
          simp [setSt]
        have h2 := monoStep_ne_unref (hrec (g.refs r) _) h1
        exact monoStep_ne_unref (propStep_mono g hrec as _) h2
      · rw [if_neg hu]
        exact monoStep_ne_unref (propStep_mono g hrec as _) hu
    · rw [propStep]
      by_cases hka : a ∈ g.keys
      · rw [if_pos hka]
        by_cases hu : st a = UsageState.UNREFERENCED
        · rw [if_pos hu]
          exact ih _ r hr' hk
        · rw [if_neg hu]
          exact ih _ r hr' hk
      · rw [if_neg hka]
        exact ih _ r hr' hk

theorem propagate_mem_not_unref (g : Graph) (fuel : Nat) :
    ∀ (l : List String) (st : StMap) (r : String), r ∈ l → r ∈ g.keys →
      propagate_indirect_usage g fuel l st r ≠ UsageState.UNREFERENCED := by
  cases fuel with
  | zero => exact propStep_mem_not_unref g (fun _ st => monoStep_refl st)
  | succ f => exact propStep_mem_not_unref g (propagate_mono g f)

/-- Measure `m`'s resolvable referenced measures are all marked (no longer
`UNREFERENCED`). -/
def refsDone (g : Graph) (st : StMap) (m : String) : Prop :=
  ∀ t ∈ g.refs m, t ∈ g.keys → st t ≠ UsageState.UNREFERENCED

theorem refsDone_mono {g : Graph} {st st' : StMap} {m : String}
    (h : monoStep st st') (hd : refsDone g st m) : refsDone g st' m :=
  fun t ht hk => monoStep_ne_unref h (hd t ht hk)

/-- Completeness of one propagation call with sufficient fuel: any measure
that comes out `INDIRECTLY_USED` either was so already, or has all its
resolvable referenced measures marked in the result. -/
theorem propagate_complete (g : Graph) :
    ∀ (fuel : Nat) (l : List String) (st : StMap), countU g st ≤ fuel →
      ∀ m, propagate_indirect_usage g fuel l st m = UsageState.INDIRECTLY_USED →
        st m = UsageState.INDIRECTLY_USED
        ∨ refsDone g (propagate_indirect_usage g fuel l st) m := by
  intro fuel
  induction fuel with
  | zero =>
    intro l st hc m hm
    have hz : countU g st = 0 := Nat.le_zero.mp hc
    have heq : propagate_indirect_usage g 0 l st = st :=
      propStep_of_no_unref g _ l st (no_unref_of_countU_zero g hz)
    rw [heq] at hm
    exact Or.inl hm
  | succ f ihf =>
    intro l
    induction l with
    | nil =>
      intro st _ m hm
      exact Or.inl hm
    | cons r rs ihl =>
      intro st hc m hm
      by_cases hk : r ∈ g.keys
      · by_cases hu : st r = UsageState.UNREFERENCED
        · have hred : propagate_indirect_usage g (f + 1) (r :: rs) st
              = propagate_indirect_usage g (f + 1) rs
                  (propagate_indirect_usage g f (g.refs r)
                    (setSt st r UsageState.INDIRECTLY_USED)) := by
            show propStep g (propagate_indirect_usage g f) (r :: rs) st = _
            rw [propStep, if_pos hk, if_pos hu]
            rfl
          set st1 := setSt st r UsageState.INDIRECTLY_USED with hst1
          set st2 := propagate_indirect_usage g f (g.refs r) st1 with hst2
          have h1 : countU g st1 ≤ f := by
            have hlt := countU_setSt_lt g hk hu
            rw [← hst1] at hlt
            omega
          have h2 : countU g st2 ≤ f + 1 := by
            have hle := countU_mono g (propagate_mono g f (g.refs r) st1)
            rw [← hst2] at hle
            omega
          rw [hred] at hm ⊢
          rcases ihl st2 h2 m hm with hm2 | hdone
          · rcases ihf (g.refs r) st1 h1 m hm2 with hm1 | hdone2
            · by_cases hmr : m = r
              · subst hmr
                refine Or.inr ?_
                intro t ht htk
                have hne : st2 t ≠ UsageState.UNREFERENCED :=
                  propagate_mem_not_unref g f _ st1 t ht htk
                exact monoStep_ne_unref (propagate_mono g (f + 1) rs st2) hne
              · refine Or.inl ?_
                have : st1 m = st m := by simp [hst1, setSt, hmr]
                rw [← this]
                exact hm1
            · exact Or.inr (refsDone_mono (propagate_mono g (f + 1) rs st2) hdone2)
          · exact Or.inr hdone
        · have hred : propagate_indirect_usage g (f + 1) (r :: rs) st
              = propagate_indirect_usage g (f + 1) rs st := by
            show propStep g (propagate_indirect_usage g f) (r :: rs) st = _
            rw [propStep, if_pos hk, if_neg hu]
            rfl
          rw [hred] at hm ⊢
          exact ihl st hc m hm
      · have hred : propagate_indirect_usage g (f + 1) (r :: rs) st
            = propagate_indirect_usage g (f + 1) rs st := by
          show propStep g (propagate_indirect_usage g f) (r :: rs) st = _
          rw [propStep, if_neg hk]
          rfl
        rw [hred] at hm ⊢
        exact ihl st hc m hm

/-- Every `INDIRECTLY_USED` measure has all its resolvable referenced
measures marked. -/
def globalDone (g : Graph) (st : StMap) : Prop :=
  ∀ m, st m = UsageState.INDIRECTLY_USED → refsDone g st m

theorem propagateFrom_mono (g : Graph) (fuel : Nat) :
    ∀ (l : List String) (st : StMap), monoStep st (propagateFrom g fuel l st) := by
  intro l
  induction l with
  | nil => intro st; exact monoStep_refl st
  | cons k ks ih =>
    intro st
    rw [propagateFrom]
    by_cases hd : st k = UsageState.DIRECTLY_USED
    · rw [if_pos hd]
      exact monoStep_trans (propagate_mono g fuel _ _) (ih _)
    · rw [if_neg hd]
      exact ih st

/-- Saturation of the propagation loop with sufficient fuel: afterward,
every `INDIRECTLY_USED` measure, and every processed measure that is
`DIRECTLY_USED`, has all its resolvable referenced measures marked. -/
theorem propagateFrom_sat (g : Graph) (fuel : Nat) :
    ∀ (l : List String) (st : StMap), countU g st ≤ fuel → globalDone g st →
      globalDone g (propagateFrom g fuel l st)
      ∧ (∀ k ∈ l, propagateFrom g fuel l st k = UsageState.DIRECTLY_USED →
          refsDone g (propagateFrom g fuel l st) k) := by
  intro l
  induction l with
  | nil =>
    intro st _ hg
    exact ⟨hg, fun k hk => absurd hk (List.not_mem_nil k)⟩
  | cons k ks ih =>
    intro st hc hg
    rw [propagateFrom]
    by_cases hd : st k = UsageState.DIRECTLY_USED
    · rw [if_pos hd]
      set st1 := propagate_indirect_usage g fuel (g.refs k) st with hst1
      have hmono1 : monoStep st st1 := propagate_mono g fuel _ _
      have hc1 : countU g st1 ≤ fuel := le_trans (countU_mono g hmono1) hc
      have hg1 : globalDone g st1 := by
        intro m hm
        rcases propagate_complete g fuel (g.refs k) st hc m hm with hm0 | hdone
        · exact refsDone_mono hmono1 (hg m hm0)
        · exact hdone
      obtain ⟨hg2, hk2⟩ := ih st1 hc1 hg1
      refine ⟨hg2, ?_⟩
      intro k' hk' hdk'
      rcases List.mem_cons.mp hk' with rfl | hk''
      · have hdone1 : refsDone g st1 k' := fun t ht htk =>
          propagate_mem_not_unref g fuel _ st t ht htk
        exact refsDone_mono (propagateFrom_mono g fuel ks st1) hdone1
      · exact hk2 k' hk'' hdk'
    · rw [if_neg hd]
      obtain ⟨hg2, hk2⟩ := ih st hc hg
      refine ⟨hg2, ?_⟩
      intro k' hk' hdk'
      rcases List.mem_cons.mp hk' with rfl | hk''
      · exfalso
        rcases propagateFrom_mono g fuel ks st k' with heq | ⟨_, hi⟩
        · exact hd (heq ▸ hdk')
        · rw [hdk'] at hi
          cases hi
      · exact hk2 k' hk'' hdk'

/-! ### Characterizations of `_resolve_usage_dependencies` -/

theorem linkPage_st (g : Graph) (i : Nat) :
    ∀ (fields : List String) (ls : LinkState) (k : String),
      (fields.foldl (addLink g i) ls).st k
        = if k ∈ g.keys ∧ k ∈ fields then UsageState.DIRECTLY_USED else ls.st k := by
  intro fields
  induction fields with
  | nil =>
    intro ls k
    simp
  | cons f fs ih =>
    intro ls k
    rw [List.foldl_cons, ih]
    by_cases hkk : k ∈ g.keys
    · by_cases hkf : k ∈ fs
      · rw [if_pos ⟨hkk, hkf⟩, if_pos ⟨hkk, List.mem_cons_of_mem f hkf⟩]
      · rw [if_neg (fun h => hkf h.2)]
        by_cases hf : k = f
        · subst hf
          rw [if_pos ⟨hkk, List.mem_cons_self k fs⟩, addLink, if_pos hkk]
          simp [setSt]
        · rw [if_neg (fun h => by
            rcases List.mem_cons.mp h.2 with h1 | h1
            · exact hf h1
            · exact hkf h1)]
          rw [addLink]
          by_cases hfk : f ∈ g.keys
          · rw [if_pos hfk]
            simp [setSt, hf]
          · rw [if_neg hfk]
    · rw [if_neg (fun h => hkk h.1), if_neg (fun h => hkk h.1), addLink]
      by_cases hfk : f ∈ g.keys
      · rw [if_pos hfk]
        simp only [setSt]
        rw [if_neg (fun hkf2 => hkk (by rw [hkf2]; exact hfk))]
      · rw [if_neg hfk]

theorem linkPage_um (g : Graph) (i : Nat) :
    ∀ (fields : List String) (ls : LinkState) (j : Nat) (k : String),
      k ∈ (fields.foldl (addLink g i) ls).um j
        ↔ k ∈ ls.um j ∨ (j = i ∧ k ∈ g.keys ∧ k ∈ fields) := by
  intro fields
  induction fields with
  | nil =>
    intro ls j k
    simp
  | cons f fs ih =>
    intro ls j k
    rw [List.foldl_cons, ih]
    constructor
    · rintro (hm | ⟨hj, hkk, hkf⟩)
      · rw [addLink] at hm
        by_cases hfk : f ∈ g.keys
        · rw [if_pos hfk] at hm
          dsimp only at hm
          by_cases hj : j = i
          · subst hj
            rw [if_pos rfl] at hm
            rcases List.mem_append.mp hm with hm' | hm'
            · exact Or.inl hm'
            · have : k = f := List.mem_singleton.mp hm'
              subst this
              exact Or.inr ⟨rfl, hfk, List.mem_cons_self k fs⟩
          · rw [if_neg hj] at hm
            exact Or.inl hm
        · rw [if_neg hfk] at hm
          exact Or.inl hm
      · exact Or.inr ⟨hj, hkk, List.mem_cons_of_mem f hkf⟩
    · rintro (hm | ⟨hj, hkk, hkf⟩)
      · refine Or.inl ?_
        rw [addLink]
        by_cases hfk : f ∈ g.keys
        · rw [if_pos hfk]
          dsimp only
          by_cases hj : j = i
          · subst hj
            rw [if_pos rfl]
            exact List.mem_append.mpr (Or.inl hm)
          · rw [if_neg hj]
            exact hm
        · rw [if_neg hfk]
          exact hm
      · rcases List.mem_cons.mp hkf with rfl | hkf'
        · refine Or.inl ?_
          subst hj
          rw [addLink, if_pos hkk]
          dsimp only
          rw [if_pos rfl]
          exact List.mem_append.mpr (Or.inr (List.mem_singleton.mpr rfl))
        · exact Or.inr ⟨hj, hkk, hkf'⟩

theorem linkPage_uip (g : Graph) (i : Nat) :
    ∀ (fields : List String) (ls : LinkState) (j : Nat) (k : String),
      j ∈ (fields.foldl (addLink g i) ls).uip k
        ↔ j ∈ ls.uip k ∨ (j = i ∧ k ∈ g.keys ∧ k ∈ fields) := by
  intro fields
  induction fields with
  | nil =>
    intro ls j k
    simp
  | cons f fs ih =>
    intro ls j k
    rw [List.foldl_cons, ih]
    constructor
    · rintro (hm | ⟨hj, hkk, hkf⟩)
      · rw [addLink] at hm
        by_cases hfk : f ∈ g.keys
        · rw [if_pos hfk] at hm
          dsimp only at hm
          by_cases hkf2 : k = f
          · subst hkf2
            rw [if_pos rfl] at hm
            rcases List.mem_append.mp hm with hm' | hm'
            · exact Or.inl hm'
            · have : j = i := List.mem_singleton.mp hm'
              exact Or.inr ⟨this, hfk, List.mem_cons_self k fs⟩
          · rw [if_neg hkf2] at hm
            exact Or.inl hm
        · rw [if_neg hfk] at hm
          exact Or.inl hm
      · exact Or.inr ⟨hj, hkk, List.mem_cons_of_mem f hkf⟩
    · rintro (hm | ⟨hj, hkk, hkf⟩)
      · refine Or.inl ?_
        rw [addLink]
        by_cases hfk : f ∈ g.keys
        · rw [if_pos hfk]
          dsimp only
          by_cases hkf2 : k = f
          · subst hkf2
            rw [if_pos rfl]
            exact List.mem_append.mpr (Or.inl hm)
          · rw [if_neg hkf2]
            exact hm
        · rw [if_neg hfk]
          exact hm
      · rcases List.mem_cons.mp hkf with rfl | hkf'
        · refine Or.inl ?_
          rw [addLink, if_pos hkk]
          dsimp only
          rw [if_pos rfl]
          exact List.mem_append.mpr (Or.inr (List.mem_singleton.mpr hj))
        · exact Or.inr ⟨hj, hkk, hkf'⟩

theorem linkPages_st (g : Graph) :
    ∀ (ps : List PageData) (i0 : Nat) (ls : LinkState) (k : String),
      (linkPages g i0 ps ls).st k
        = if k ∈ g.keys ∧ ∃ p ∈ ps, k ∈ p.used_fields then UsageState.DIRECTLY_USED
          else ls.st k := by
  intro ps
  induction ps with
  | nil =>
    intro i0 ls k
    rw [linkPages]
    simp
  | cons p ps' ih =>
    intro i0 ls k
    rw [linkPages, ih, linkPage, linkPage_st]
    by_cases hk : k ∈ g.keys
    · by_cases hex : ∃ p' ∈ ps', k ∈ p'.used_fields
      · obtain ⟨q, hq, hqk⟩ := hex
        rw [if_pos ⟨hk, q, hq, hqk⟩, if_pos ⟨hk, q, List.mem_cons_of_mem p hq, hqk⟩]
      · rw [if_neg (fun h => hex h.2)]
        by_cases hp : k ∈ p.used_fields
        · rw [if_pos ⟨hk, hp⟩, if_pos ⟨hk, p, List.mem_cons_self p ps', hp⟩]
        · rw [if_neg (fun h => hp h.2), if_neg (fun h => by
            obtain ⟨q, hq, hqk⟩ := h.2
            rcases List.mem_cons.mp hq with rfl | hq'
            · exact hp hqk
            · exact hex ⟨q, hq', hqk⟩)]
    · rw [if_neg (fun h => hk h.1), if_neg (fun h => hk h.1), if_neg (fun h => hk h.1)]

theorem linkPages_um (g : Graph) :
    ∀ (ps : List PageData) (i0 : Nat) (ls : LinkState) (j : Nat) (k : String),
      k ∈ (linkPages g i0 ps ls).um j
        ↔ k ∈ ls.um j
          ∨ (k ∈ g.keys
              ∧ ∃ n p, ps[n]? = some p ∧ j = i0 + n ∧ k ∈ p.used_fields) := by
  intro ps
  induction ps with
  | nil =>
    intro i0 ls j k
    rw [linkPages]
    simp
  | cons p ps' ih =>
    intro i0 ls j k
    rw [linkPages, ih]
    constructor
    · rintro (hm | ⟨hk, n, q, hn, hj, hqk⟩)
      · rw [linkPage, linkPage_um] at hm
        rcases hm with hm' | ⟨hj, hk, hkf⟩
        · exact Or.inl hm'
        · exact Or.inr ⟨hk, 0, p, by simp, by omega, hkf⟩
      · exact Or.inr ⟨hk, n + 1, q, by simpa using hn, by omega, hqk⟩
    · rintro (hm | ⟨hk, n, q, hn, hj, hqk⟩)
      · refine Or.inl ?_
        rw [linkPage, linkPage_um]
        exact Or.inl hm
      · cases n with
        | zero =>
          refine Or.inl ?_
          rw [linkPage, linkPage_um]
          simp only [List.getElem?_cons_zero, Option.some.injEq] at hn
          subst hn
          exact Or.inr ⟨by omega, hk, hqk⟩
        | succ n' =>
          refine Or.inr ⟨hk, n', q, by simpa using hn, by omega, hqk⟩

theorem linkPages_uip (g : Graph) :
    ∀ (ps : List PageData) (i0 : Nat) (ls : LinkState) (j : Nat) (k : String),
      j ∈ (linkPages g i0 ps ls).uip k
        ↔ j ∈ ls.uip k
          ∨ (k ∈ g.keys
              ∧ ∃ n p, ps[n]? = some p ∧ j = i0 + n ∧ k ∈ p.used_fields) := by
  intro ps
  induction ps with
  | nil =>
    intro i0 ls j k
    rw [linkPages]
    simp
  | cons p ps' ih =>
    intro i0 ls j k
    rw [linkPages, ih]
    constructor
    · rintro (hm | ⟨hk, n, q, hn, hj, hqk⟩)
      · rw [linkPage, linkPage_uip] at hm
        rcases hm with hm' | ⟨hj, hk, hkf⟩
        · exact Or.inl hm'
        · exact Or.inr ⟨hk, 0, p, by simp, by omega, hkf⟩
      · exact Or.inr ⟨hk, n + 1, q, by simpa using hn, by omega, hqk⟩
    · rintro (hm | ⟨hk, n, q, hn, hj, hqk⟩)
      · refine Or.inl ?_
        rw [linkPage, linkPage_uip]
        exact Or.inl hm
      · cases n with
        | zero =>
          refine Or.inl ?_
          rw [linkPage, linkPage_uip]
          simp only [List.getElem?_cons_zero, Option.some.injEq] at hn
          subst hn
          exact Or.inr ⟨by omega, hk, hqk⟩
        | succ n' =>
          refine Or.inr ⟨hk, n', q, by simpa using hn, by omega, hqk⟩

/-- State after `_resolve_usage_dependencies`: `DIRECTLY_USED` exactly for
the measures some page's reformatted field set names, else still
`UNREFERENCED`. -/
theorem resolve_usage_st (g : Graph) (k : String) :
    (resolve_usage_dependencies g).st k
      = if k ∈ g.keys ∧ ∃ p ∈ g.pages, k ∈ p.used_fields then UsageState.DIRECTLY_USED
        else UsageState.UNREFERENCED := by
  rw [resolve_usage_dependencies, linkPages_st]
  by_cases h : k ∈ g.keys ∧ ∃ p ∈ g.pages, k ∈ p.used_fields
  · rw [if_pos h, if_pos h]
  · rw [if_neg h, if_neg h]
    rfl

theorem resolve_usage_st_cases (g : Graph) (k : String) :
    (resolve_usage_dependencies g).st k = UsageState.DIRECTLY_USED
    ∨ (resolve_usage_dependencies g).st k = UsageState.UNREFERENCED := by
  rw [resolve_usage_st]
  by_cases h : k ∈ g.keys ∧ ∃ p ∈ g.pages, k ∈ p.used_fields
  · rw [if_pos h]
    exact Or.inl rfl
  · rw [if_neg h]
    exact Or.inr rfl

theorem reportUM_mem (g : Graph) (i : Nat) (k : String) :
    k ∈ reportUsedMeasures g i
      ↔ k ∈ g.keys ∧ ∃ p, g.pages[i]? = some p ∧ k ∈ p.used_fields := by
  rw [reportUsedMeasures, resolve_usage_dependencies, linkPages_um]
  constructor
  · rintro (hm | ⟨hk, n, p, hn, hi, hp⟩)
    · exact absurd hm (List.not_mem_nil k)
    · have : n = i := by omega
      subst this
      exact ⟨hk, p, hn, hp⟩
  · rintro ⟨hk, p, hi, hp⟩
    exact Or.inr ⟨hk, i, p, hi, by omega, hp⟩

theorem reportUIP_mem (g : Graph) (k : String) (i : Nat) :
    i ∈ reportUsedInPages g k
      ↔ k ∈ g.keys ∧ ∃ p, g.pages[i]? = some p ∧ k ∈ p.used_fields := by
  rw [reportUsedInPages, resolve_usage_dependencies, linkPages_uip]
  constructor
  · rintro (hm | ⟨hk, n, p, hn, hi, hp⟩)
    · exact absurd hm (List.not_mem_nil i)
    · have : n = i := by omega
      subst this
      exact ⟨hk, p, hn, hp⟩
  · rintro ⟨hk, p, hi, hp⟩
    exact Or.inr ⟨hk, i, p, hi, by omega, hp⟩

theorem globalDone_resolve_usage (g : Graph) :
    globalDone g (resolve_usage_dependencies g).st := by
  intro m hm
  rcases resolve_usage_st_cases g m with hD | hU
  · rw [hm] at hD
    simp at hD
  · rw [hm] at hU
    simp at hU

theorem countU_le_length (g : Graph) (st : StMap) :
    countU g st ≤ g.keys.length :=
  List.countP_le_length _

theorem propagateFrom_keep_direct (g : Graph) (fuel : Nat) (l : List String)
    (st : StMap) (k : String) (hd : st k = UsageState.DIRECTLY_USED) :
    propagateFrom g fuel l st k = UsageState.DIRECTLY_USED := by
  rcases propagateFrom_mono g fuel l st k with heq | ⟨hu, _⟩
  · rw [heq, hd]
  · rw [hd] at hu
    simp at hu

theorem classify_dangling_of_ne_unref (g : Graph) (st : StMap) (k : String)
    (h : st k ≠ UsageState.UNREFERENCED) : classify_dangling g st k = st k := by
  simp only [classify_dangling]
  rw [if_neg (fun hc => h hc.1)]

theorem referenced_by_mem (g : Graph) (t r : String) :
    r ∈ referenced_by_measures g t
      ↔ t ∈ g.keys ∧ r ∈ g.keys ∧ t ∈ g.refs r := by
  rw [referenced_by_measures]
  by_cases ht : t ∈ g.keys
  · rw [if_pos ht]
    simp [List.mem_filter, ht]
  · rw [if_neg ht]
    simp [ht]

/-! ### Fuel stabilization (termination of the propagation recursion) -/

theorem propagate_fuel_stable (g : Graph) :
    ∀ (fuel : Nat) (l : List String) (st : StMap), countU g st ≤ fuel →
      propagate_indirect_usage g fuel l st
        = propagate_indirect_usage g (fuel + 1) l st := by
  intro fuel
  induction fuel with
  | zero =>
    intro l st hc
    have hz := no_unref_of_countU_zero g (Nat.le_zero.mp hc)
    show propStep g (fun _ st => st) l st
        = propStep g (propagate_indirect_usage g 0) l st
    rw [propStep_of_no_unref g _ l st hz, propStep_of_no_unref g _ l st hz]
  | succ f ihf =>
    intro l
    induction l with
    | nil => intro st _; rfl
    | cons r rs ihl =>
      intro st hc
      show propStep g (propagate_indirect_usage g f) (r :: rs) st
          = propStep g (propagate_indirect_usage g (f + 1)) (r :: rs) st
      rw [propStep, propStep]
      by_cases hk : r ∈ g.keys
      · rw [if_pos hk, if_pos hk]
        by_cases hu : st r = UsageState.UNREFERENCED
        · rw [if_pos hu, if_pos hu]
          have h1 : countU g (setSt st r UsageState.INDIRECTLY_USED) ≤ f := by
            have := countU_setSt_lt g hk hu
            omega
          have heq := ihf (g.refs r) (setSt st r UsageState.INDIRECTLY_USED) h1
          rw [← heq]
          have h2 : countU g (propagate_indirect_usage g f (g.refs r)
              (setSt st r UsageState.INDIRECTLY_USED)) ≤ f + 1 := by
            have := countU_mono g (propagate_mono g f (g.refs r)
              (setSt st r UsageState.INDIRECTLY_USED))
            omega
          exact ihl _ h2
        · rw [if_neg hu, if_neg hu]
          exact ihl st hc
      · rw [if_neg hk, if_neg hk]
        exact ihl st hc

theorem propagate_fuel_ge (g : Graph) (fuel fuel' : Nat) (l : List String)
    (st : StMap) (hc : countU g st ≤ fuel) (hle : fuel ≤ fuel') :
    propagate_indirect_usage g fuel l st = propagate_indirect_usage g fuel' l st := by
  induction fuel' with
  | zero =>
    have : fuel = 0 := by omega
    subst this
    rfl
  | succ f ih =>
    by_cases h : fuel ≤ f
    · rw [ih h]
      exact propagate_fuel_stable g f l st (le_trans hc h)
    · have : fuel = f + 1 := by omega
      subst this
      rfl

theorem propagateFrom_fuel_ge (g : Graph) (fuel fuel' : Nat)
    (hf : g.keys.length ≤ fuel) (hf' : g.keys.length ≤ fuel') :
    ∀ (l : List String) (st : StMap),
      propagateFrom g fuel l st = propagateFrom g fuel' l st := by
  intro l
  induction l with
  | nil => intro st; rfl
  | cons k ks ih =>
    intro st
    rw [propagateFrom, propagateFrom]
    by_cases hd : st k = UsageState.DIRECTLY_USED
    · rw [if_pos hd, if_pos hd]
      have hc : countU g st ≤ g.keys.length := countU_le_length g st
      have heq : propagate_indirect_usage g fuel (g.refs k) st
          = propagate_indirect_usage g fuel' (g.refs k) st := by
        rw [← propagate_fuel_ge g g.keys.length fuel (g.refs k) st hc hf,
          ← propagate_fuel_ge g g.keys.length fuel' (g.refs k) st hc hf']
      rw [heq]
      exact ih _
    · rw [if_neg hd, if_neg hd]
      exact ih st

/-! ### The claims on the resolver -/

/-- Claim C6: for any fuel at least the number of measures, the propagation
loop computes the same final states as at fuel `g.keys.length` — the
recursion's depth is bounded because it only descends into a measure that
was `UNREFERENCED` and is flipped to `INDIRECTLY_USED` first, so every
measure is descended into at most once; this holds in particular when the
reference graph has a cycle reachable from a `DIRECTLY_USED` measure (see
the witness). -/
theorem c6_propagation_terminates (g : Graph) (fuel : Nat)
    (h : g.keys.length ≤ fuel) :
    propagateFrom g fuel g.keys (resolve_usage_dependencies g).st
      = propagateFrom g g.keys.length g.keys (resolve_usage_dependencies g).st :=
  propagateFrom_fuel_ge g fuel g.keys.length h (le_refl _) g.keys
    (resolve_usage_dependencies g).st

/-- A report with the measure cycle `R[b] → R[c] → R[b]` reachable from the
directly-used `R[a]`. -/
def c6ExampleGraph : Graph :=
  { keys := ["R[a]", "R[b]", "R[c]"]
  , refs := fun s =>
      if s = "R[a]" then ["R[b]"]
      else if s = "R[b]" then ["R[c]"]
      else if s = "R[c]" then ["R[b]"]
      else []
  , pages := [⟨["R[a]"]⟩] }

/-- Concrete instantiation for C6: on the cyclic example the propagation
stabilizes (any larger fuel gives the same states), and the cycle members
end `INDIRECTLY_USED`. -/
theorem c6_propagation_terminates_witness :
    c6ExampleGraph.keys.length ≤ 7
    ∧ propagateFrom c6ExampleGraph 7 c6ExampleGraph.keys
          (resolve_usage_dependencies c6ExampleGraph).st
        = propagateFrom c6ExampleGraph c6ExampleGraph.keys.length c6ExampleGraph.keys
          (resolve_usage_dependencies c6ExampleGraph).st
    ∧ reportUsageState c6ExampleGraph "R[b]" = UsageState.INDIRECTLY_USED
    ∧ reportUsageState c6ExampleGraph "R[c]" = UsageState.INDIRECTLY_USED :=
  ⟨by decide, c6_propagation_terminates c6ExampleGraph 7 (by decide),
    by decide, by decide⟩

/-- Claim C3: a measure in any page's `used_measures` is `DIRECTLY_USED`
after construction; and a measure marked `DIRECTLY_USED` by
`_resolve_usage_dependencies` keeps that state through the indirect-usage
propagation and the dangling classification. -/
theorem c3_directly_used_stable (g : Graph) :
    (∀ (i : Nat) (k : String), k ∈ reportUsedMeasures g i →
        reportUsageState g k = UsageState.DIRECTLY_USED)
    ∧ (∀ k : String,
        (resolve_usage_dependencies g).st k = UsageState.DIRECTLY_USED →
        propagateFrom g g.keys.length g.keys (resolve_usage_dependencies g).st k
            = UsageState.DIRECTLY_USED
        ∧ reportUsageState g k = UsageState.DIRECTLY_USED) := by
  have hstable : ∀ k : String,
      (resolve_usage_dependencies g).st k = UsageState.DIRECTLY_USED →
      propagateFrom g g.keys.length g.keys (resolve_usage_dependencies g).st k
          = UsageState.DIRECTLY_USED
      ∧ reportUsageState g k = UsageState.DIRECTLY_USED := by
    intro k hd
    have hFF := propagateFrom_keep_direct g g.keys.length g.keys _ k hd
    refine ⟨hFF, ?_⟩
    have : reportUsageState g k
        = classify_dangling g
            (propagateFrom g g.keys.length g.keys (resolve_usage_dependencies g).st) k :=
      rfl
    rw [this, classify_dangling_of_ne_unref g _ k (by rw [hFF]; simp), hFF]
  refine ⟨?_, hstable⟩
  intro i k hm
  obtain ⟨hk, p, hpi, hp⟩ := (reportUM_mem g i k).mp hm
  have hpmem : p ∈ g.pages := List.getElem?_mem hpi
  have hd : (resolve_usage_dependencies g).st k = UsageState.DIRECTLY_USED := by
    rw [resolve_usage_st, if_pos ⟨hk, p, hpmem, hp⟩]
  exact (hstable k hd).2

/-- A report with measure `T[a]` used on page 0 and referencing `T[b]`. -/
def c3ExampleGraph : Graph :=
  { keys := ["T[a]", "T[b]"]
  , refs := fun s => if s = "T[a]" then ["T[b]"] else []
  , pages := [⟨["T[a]"]⟩] }

/-- Concrete instantiation for C3. -/
theorem c3_directly_used_stable_witness :
    "T[a]" ∈ reportUsedMeasures c3ExampleGraph 0
    ∧ reportUsageState c3ExampleGraph "T[a]" = UsageState.DIRECTLY_USED :=
  ⟨by decide, (c3_directly_used_stable c3ExampleGraph).1 0 "T[a]" (by decide)⟩

/-- Claim C9: the page-to-measure links are mutually consistent after
construction: measure `k` is in page `i`'s `used_measures` iff page `i` is
in `k`'s `used_in_pages`, and either holds exactly when `k`'s full name is
in the page's reformatted `used_fields`. -/
theorem c9_page_measure_links (g : Graph) (i : Nat) (p : PageData)
    (hp : g.pages[i]? = some p) (k : String) (hk : k ∈ g.keys) :
    (k ∈ reportUsedMeasures g i ↔ i ∈ reportUsedInPages g k)
    ∧ (k ∈ reportUsedMeasures g i ↔ k ∈ p.used_fields) := by
  constructor
  · rw [reportUM_mem, reportUIP_mem]
  · rw [reportUM_mem]
    constructor
    · rintro ⟨_, q, hq, hqk⟩
      rw [hp] at hq
      have : q = p := by
        injection hq with hq'
        exact hq'.symm
      subst this
      exact hqk
    · intro hkp
      exact ⟨hk, p, hp, hkp⟩

/-- A one-measure, one-page report where the page also uses a plain column
field. -/
def c9ExampleGraph : Graph :=
  { keys := ["U[a]"]
  , refs := fun _ => []
  , pages := [⟨["U[a]", "V[w]"]⟩] }

/-- Concrete instantiation for C9. -/
theorem c9_page_measure_links_witness :
    c9ExampleGraph.pages[0]? = some ⟨["U[a]", "V[w]"]⟩
    ∧ (("U[a]" ∈ reportUsedMeasures c9ExampleGraph 0
          ↔ 0 ∈ reportUsedInPages c9ExampleGraph "U[a]")
       ∧ ("U[a]" ∈ reportUsedMeasures c9ExampleGraph 0
          ↔ "U[a]" ∈ PageData.used_fields ⟨["U[a]", "V[w]"]⟩)) :=
  ⟨by decide,
    c9_page_measure_links c9ExampleGraph 0 ⟨["U[a]", "V[w]"]⟩ (by decide) "U[a]" (by decide)⟩

/-- Claim C2: a measure `DANGLING` after construction has a non-empty
`referenced_by_measures`, and none of its referencing measures is
`DIRECTLY_USED` or `INDIRECTLY_USED` — otherwise the propagation pass would
have upgraded it before the dangling classification ran. -/
theorem c2_dangling_referencers (g : Graph) (m : String)
    (h : reportUsageState g m = UsageState.DANGLING) :
    referenced_by_measures g m ≠ []
    ∧ ∀ r ∈ referenced_by_measures g m,
        reportUsageState g r ≠ UsageState.DIRECTLY_USED
        ∧ reportUsageState g r ≠ UsageState.INDIRECTLY_USED := by
  have hrs : ∀ x, reportUsageState g x
      = classify_dangling g
          (propagateFrom g g.keys.length g.keys (resolve_usage_dependencies g).st) x :=
    fun _ => rfl
  set FF := propagateFrom g g.keys.length g.keys (resolve_usage_dependencies g).st
    with hFFdef
  have hFFcases : ∀ x, FF x = UsageState.DIRECTLY_USED
      ∨ FF x = UsageState.INDIRECTLY_USED ∨ FF x = UsageState.UNREFERENCED := by
    intro x
    rcases propagateFrom_mono g g.keys.length g.keys
        (resolve_usage_dependencies g).st x with heq | ⟨_, hi⟩
    · rw [hFFdef, heq]
      rcases resolve_usage_st_cases g x with hD | hU
      · exact Or.inl hD
      · exact Or.inr (Or.inr hU)
    · rw [hFFdef, hi]
      exact Or.inr (Or.inl rfl)
  have hcond : FF m = UsageState.UNREFERENCED ∧ referenced_by_measures g m ≠ [] := by
    by_cases hc : FF m = UsageState.UNREFERENCED ∧ referenced_by_measures g m ≠ []
    · exact hc
    · exfalso
      rw [hrs m] at h
      simp only [classify_dangling] at h
      rw [if_neg hc] at h
      rcases hFFcases m with h' | h' | h' <;> rw [h] at h' <;> simp at h'
  obtain ⟨hsat, hdsat⟩ := propagateFrom_sat g g.keys.length g.keys
    (resolve_usage_dependencies g).st
    (countU_le_length g _) (globalDone_resolve_usage g)
  refine ⟨hcond.2, ?_⟩
  intro r hr
  obtain ⟨hmk, hrk, hmref⟩ := (referenced_by_mem g m r).mp hr
  have hstate : ∀ s : UsageState, reportUsageState g r = s →
      s ≠ UsageState.DANGLING → FF r = s := by
    intro s hsr hsne
    rw [hrs r] at hsr
    simp only [classify_dangling] at hsr
    by_cases hc : FF r = UsageState.UNREFERENCED ∧ referenced_by_measures g r ≠ []
    · rw [if_pos hc] at hsr
      exact absurd hsr.symm hsne
    · rw [if_neg hc] at hsr
      exact hsr
  constructor
  · intro hD
    have hFFr : FF r = UsageState.DIRECTLY_USED := hstate _ hD (by simp)
    have hdone : refsDone g FF r := hdsat r hrk hFFr
    exact hdone m hmref hmk hcond.1
  · intro hI
    have hFFr : FF r = UsageState.INDIRECTLY_USED := hstate _ hI (by simp)
    have hdone : refsDone g FF r := hsat r hFFr
    exact hdone m hmref hmk hcond.1

/-- A report where unused `S[a]` references unused `S[b]`: `S[b]` ends
`DANGLING`. -/
def c2ExampleGraph : Graph :=
  { keys := ["S[a]", "S[b]"]
  , refs := fun s => if s = "S[a]" then ["S[b]"] else []
  , pages := [] }

/-- Concrete instantiation for C2: `S[b]` is `DANGLING`, its referencer
`S[a]` is neither `DIRECTLY_USED` nor `INDIRECTLY_USED`. -/
theorem c2_dangling_referencers_witness :
    reportUsageState c2ExampleGraph "S[b]" = UsageState.DANGLING
    ∧ referenced_by_measures c2ExampleGraph "S[b]" ≠ []
    ∧ reportUsageState c2ExampleGraph "S[a]" ≠ UsageState.DIRECTLY_USED
    ∧ reportUsageState c2ExampleGraph "S[a]" ≠ UsageState.INDIRECTLY_USED :=
  ⟨by decide,
    (c2_dangling_referencers c2ExampleGraph "S[b]" (by decide)).1,
    ((c2_dangling_referencers c2ExampleGraph "S[b]" (by decide)).2 "S[a]" (by decide)).1,
    ((c2_dangling_referencers c2ExampleGraph "S[b]" (by decide)).2 "S[a]" (by decide)).2⟩

end PBI
